import Mathlib

/-!
# Verification of the `moviehash` fingerprint library

A shallow embedding of `src/lib.rs` (the whole repository) into Lean 4,
together with proofs of the specification's claims about it.

Modelling conventions:
* Rust `u64` values are `Nat` with explicit `% 2 ^ 64` wherever the source
  performs wrapping arithmetic; `u64::wrapping_add` becomes `u64_wrapping_add`.
* A file's bytes are a `List Nat` (each element a byte value).
* The filesystem collaborator is an oracle (`World`): the result of `File::open`,
  the result of `metadata().len()`, and injectable I/O faults for each
  `read_exact` call and for the `seek` call.  A fault of `none` means the
  operation behaves like a healthy filesystem serving the opened bytes.
* Fallible Rust code returns `Except`; a potential panic (the `u64` subtraction
  `file_size - CHUNK_SIZE`) is modelled by an outer `Option`: `none` is a panic.
-/

set_option autoImplicit false

namespace Moviehash

/-- A portable I/O failure kind, modelling the `std::io::ErrorKind` values the
repository's code and tests mention (the real enum has more variants; `Other`
stands for all remaining ones). -/
inductive ErrorKind where
  | NotFound
  | PermissionDenied
  | InvalidFilename
  | UnexpectedEof
  | Interrupted
  | Other
  deriving DecidableEq, Repr

/-- Modelled from the spec: the platform's standard textual description of an
I/O failure kind (`std::io::ErrorKind`'s rendering, which lives in the Rust
standard library, not in this repository).  The spec pins the descriptions
"entity not found", "invalid filename" and similar standard strings. -/
def ErrorKind.as_str : ErrorKind → String
  | .NotFound => "entity not found"
  | .PermissionDenied => "permission denied"
  | .InvalidFilename => "invalid filename"
  | .UnexpectedEof => "unexpected end of file"
  | .Interrupted => "operation interrupted"
  | .Other => "other error"

/-- An `std::io::Error`, reduced to the only component the repository ever
consumes: its kind (`value.kind()`). -/
structure IoError where
  kind : ErrorKind
  deriving DecidableEq, Repr

/-- The repository's `enum Error { SmallSize, Io(io::ErrorKind) }`. -/
inductive Error where
  | SmallSize
  | Io (kind : ErrorKind)
  deriving DecidableEq, Repr

/-- The repository's `impl From<io::Error> for Error`:
`Self::Io(value.kind())`. -/
def Error.ofIoError (value : IoError) : Error :=
  .Io value.kind

/-- The repository's `impl Display for Error`: `SmallSize` renders a fixed
message, `Io(err_kind)` renders the kind via the platform's description. -/
def Error.display : Error → String
  | .SmallSize => "file size is less than 64 KB"
  | .Io err_kind => err_kind.as_str

/-- The repository's `pub struct MovieHash(pub u64)`. -/
structure MovieHash where
  val : Nat
  deriving DecidableEq, Repr

/-- The repository's `MovieHash::new`. -/
def MovieHash.new (hash : Nat) : MovieHash :=
  ⟨hash⟩

/-- The lowercase hexadecimal digit for a nibble value, as Rust's `{:x}`
formatting produces (`0`-`9` then `a`-`f`). -/
def hexDigitChar (n : Nat) : Char :=
  if n < 10 then Char.ofNat (48 + n) else Char.ofNat (87 + n)

/-- The minimal (no leading zeros) lowercase hexadecimal digit list of a
number, most significant digit first: what Rust's `{:x}` prints before any
width padding is applied. -/
def hexChars (n : Nat) : List Char :=
  if _h : n < 16 then [hexDigitChar n]
  else hexChars (n / 16) ++ [hexDigitChar (n % 16)]
termination_by n
decreasing_by exact Nat.div_lt_self (by omega) (by omega)

/-- The repository's `MovieHash::as_hex`: `format!("{:016x}", self.0)`, i.e.
the minimal lowercase hex digits left-filled with `'0'` to width 16. -/
def MovieHash.as_hex (h : MovieHash) : String :=
  ⟨List.replicate (16 - (hexChars h.val).length) '0' ++ hexChars h.val⟩

/-- The repository's `impl Display for MovieHash`: the same
`format!("{:016x}", self.0)` as `as_hex`, embedded separately so that the
agreement of the two renderings is a theorem rather than a definition. -/
def MovieHash.displayString (h : MovieHash) : String :=
  ⟨List.replicate (16 - (hexChars h.val).length) '0' ++ hexChars h.val⟩

/-- Fixed-width big-endian hexadecimal digit list: `hexBE k n` is the last `k`
hex digits of `n`, most significant first.  This is the spec's reference
rendering ("the big-endian hex representation of the value left-padded with
zeros"), to be compared with the embedding of the source's format string. -/
def hexBE (k n : Nat) : List Char :=
  match k with
  | 0 => []
  | k + 1 => hexBE k (n / 16) ++ [hexDigitChar (n % 16)]

/-- The spec's reference rendering of a 64-bit value: exactly 16 big-endian
lowercase hex digits. -/
def specHex16 (n : Nat) : String :=
  ⟨hexBE 16 n⟩

/-- The sixteen lowercase hexadecimal digit characters. -/
def lowerHexDigits : List Char :=
  "0123456789abcdef".data

/-- The repository's `const CHUNK_SIZE: u64 = 65536`. -/
def CHUNK_SIZE : Nat := 65536

/-- The repository's `let word_count = CHUNK_SIZE / 8`. -/
def word_count : Nat := CHUNK_SIZE / 8

/-- Rust's `u64::wrapping_add`: addition modulo `2 ^ 64`. -/
def u64_wrapping_add (a b : Nat) : Nat :=
  (a + b) % 2 ^ 64

/-- Rust's checked `u64` subtraction: `none` models the underflow panic of
`a - b` when `b > a` (debug overflow check). -/
def u64_checked_sub (a b : Nat) : Option Nat :=
  if b ≤ a then some (a - b) else none

/-- Rust's `u64::from_le_bytes`: the little-endian value of a byte list (first
byte least significant). -/
def u64_from_le_bytes (bs : List Nat) : Nat :=
  bs.foldr (fun b acc => b + 256 * acc) 0

/-- The `BufReader` over the opened file, reduced to what the algorithm
observes: the file's bytes and the current read position. -/
structure Reader where
  content : List Nat
  pos : Nat

/-- One `reader.read_exact(&mut word_buffer)` with an 8-byte buffer on a
healthy filesystem: returns the next 8 bytes and advances the position, or
fails with `UnexpectedEof` if fewer than 8 bytes remain. -/
def read_exact8 (r : Reader) : Except IoError (List Nat × Reader) :=
  if r.pos + 8 ≤ r.content.length then
    .ok ((r.content.drop r.pos).take 8, ⟨r.content, r.pos + 8⟩)
  else
    .error ⟨.UnexpectedEof⟩

/-- The filesystem oracle for one `from_path` call: the outcome of
`File::open`, the outcome of `metadata().len()`, an optional injected I/O
fault for the `i`-th `read_exact` call, and an optional fault for the `seek`
call. -/
structure World where
  openResult : Except IoError (List Nat)
  metadataResult : Except IoError Nat
  readFaults : Nat → Option IoError
  seekFault : Option IoError

/-- A fault-free world serving a file with the given bytes: opening succeeds,
the reported length is the true length, and no read or seek fault occurs. -/
def okWorld (content : List Nat) : World where
  openResult := .ok content
  metadataResult := .ok content.length
  readFaults := fun _ => none
  seekFault := none

/-- One of the source's two `for _ in 0..word_count` loops: perform `n`
`read_exact` calls (the `i`-th overall call of the whole run may carry an
injected fault), folding each little-endian word into the hash with
`wrapping_add`; any I/O failure is surfaced via `Error::from` and stops the
loop. -/
def readWords (w : World) (r : Reader) (hash : Nat) (i n : Nat) :
    Except Error (Nat × Reader) :=
  match n with
  | 0 => .ok (hash, r)
  | n + 1 =>
    match w.readFaults i with
    | some e => .error (Error.ofIoError e)
    | none =>
      match read_exact8 r with
      | .error e => .error (Error.ofIoError e)
      | .ok (word_buffer, r2) =>
        readWords w r2 (u64_wrapping_add hash (u64_from_le_bytes word_buffer)) (i + 1) n

/-- The repository's `MovieHash::from_path`, step by step: open, stat, the
`SmallSize` guard, the first-window loop, the `file_size - CHUNK_SIZE`
subtraction (whose underflow would panic: the outer `Option` is `none` there),
the seek, the second-window loop, and the final `MovieHash::new`. -/
def from_path (w : World) : Option (Except Error MovieHash) :=
  match w.openResult with
  | .error e => some (.error (Error.ofIoError e))
  | .ok content =>
    match w.metadataResult with
    | .error e => some (.error (Error.ofIoError e))
    | .ok file_size =>
      if file_size < CHUNK_SIZE then
        some (.error .SmallSize)
      else
        match readWords w ⟨content, 0⟩ file_size 0 word_count with
        | .error e => some (.error e)
        | .ok (hash, _) =>
          match u64_checked_sub file_size CHUNK_SIZE with
          | none => none
          | some offset =>
            match w.seekFault with
            | some e => some (.error (Error.ofIoError e))
            | none =>
              match readWords w ⟨content, offset⟩ hash word_count word_count with
              | .error e => some (.error e)
              | .ok (hash2, _) => some (.ok (MovieHash.new hash2))

/-- The little-endian 64-bit word of a byte list starting at position `p`. -/
def u64word (c : List Nat) (p : Nat) : Nat :=
  u64_from_le_bytes ((c.drop p).take 8)

/-- The plain (unwrapped) sum of `n` consecutive 8-byte little-endian words of
`c` starting at position `p`. -/
def wordsSum (c : List Nat) (p n : Nat) : Nat :=
  match n with
  | 0 => 0
  | n + 1 => u64word c p + wordsSum c (p + 8) n

/-- The spec's reference quantity `sum_of_8byte_LE_words(buffer)`: the sum of
the consecutive 8-byte little-endian words of a buffer. -/
def sum_of_le_words (buf : List Nat) : Nat :=
  wordsSum buf 0 (buf.length / 8)

/-- A fault-free world whose oracle serves exactly the bytes `c`: opening
yields `c`, the reported length is accurate, and no fault is injected. -/
def servedBy (w : World) (c : List Nat) : Prop :=
  w.openResult = .ok c ∧ w.metadataResult = .ok c.length ∧
    (∀ i, w.readFaults i = none) ∧ w.seekFault = none

/-! ## Lemmas about the read loops -/

theorem read_exact8_ok (c : List Nat) (p : Nat) (h : p + 8 ≤ c.length) :
    read_exact8 ⟨c, p⟩ = .ok ((c.drop p).take 8, ⟨c, p + 8⟩) := by
  simp [read_exact8, h]

theorem readWords_ok (w : World) (c : List Nat) :
    ∀ (n p hash i : Nat), (∀ j, j < n → w.readFaults (i + j) = none) →
      p + 8 * n ≤ c.length →
      readWords w ⟨c, p⟩ hash i n =
        .ok (if n = 0 then hash else (hash + wordsSum c p n) % 2 ^ 64,
             ⟨c, p + 8 * n⟩) := by
  intro n
  induction n with
  | zero =>
    intro p hash i _ _
    simp [readWords]
  | succ n ih =>
    intro p hash i hf hb
    have h0 : w.readFaults i = none := by
      have := hf 0 (by omega)
      simpa using this
    have hread := read_exact8_ok c p (by omega)
    rw [readWords, h0, hread]
    have hf2 : ∀ j, j < n → w.readFaults (i + 1 + j) = none := by
      intro j hj
      have h2 : i + 1 + j = i + (j + 1) := by omega
      rw [h2]
      exact hf _ (by omega)
    show readWords w ⟨c, p + 8⟩
        (u64_wrapping_add hash (u64_from_le_bytes ((c.drop p).take 8))) (i + 1) n = _
    rw [ih (p + 8) _ (i + 1) hf2 (by omega)]
    have hpos : p + 8 + 8 * n = p + 8 * (n + 1) := by ring
    cases n with
    | zero =>
      simp [u64_wrapping_add, wordsSum, u64word]
    | succ m =>
      have hw : (u64_wrapping_add hash (u64_from_le_bytes ((c.drop p).take 8))
            + wordsSum c (p + 8) (m + 1)) % 2 ^ 64
          = (hash + wordsSum c p (m + 1 + 1)) % 2 ^ 64 := by
        rw [u64_wrapping_add, Nat.mod_add_mod]
        congr 1
        rw [show wordsSum c p (m + 1 + 1)
            = u64word c p + wordsSum c (p + 8) (m + 1) from rfl, u64word]
        ring
      simp only [hpos]
      rw [if_neg (show ¬ m + 1 = 0 by omega), if_neg (show ¬ m + 1 + 1 = 0 by omega), hw]

theorem readWords_fault (w : World) (c : List Nat) :
    ∀ (t n p hash i : Nat) (e : IoError), t < n →
      (∀ j, j < t → w.readFaults (i + j) = none) →
      w.readFaults (i + t) = some e →
      p + 8 * t ≤ c.length →
      readWords w ⟨c, p⟩ hash i n = .error (.Io e.kind) := by
  intro t
  induction t with
  | zero =>
    intro n p hash i e ht hf he hb
    cases n with
    | zero => omega
    | succ n =>
      have h0 : w.readFaults i = some e := by simpa using he
      rw [readWords, h0]
      rfl
  | succ t ih =>
    intro n p hash i e ht hf he hb
    cases n with
    | zero => omega
    | succ n =>
      have h0 : w.readFaults i = none := by
        have := hf 0 (by omega)
        simpa using this
      have hread := read_exact8_ok c p (by omega)
      rw [readWords, h0, hread]
      have hf2 : ∀ j, j < t → w.readFaults (i + 1 + j) = none := by
        intro j hj
        have h2 : i + 1 + j = i + (j + 1) := by omega
        rw [h2]
        exact hf _ (by omega)
      have he2 : w.readFaults (i + 1 + t) = some e := by
        have h2 : i + 1 + t = i + (t + 1) := by omega
        rw [h2]
        exact he
      exact ih n (p + 8) _ (i + 1) e (by omega) hf2 he2 (by omega)

theorem readWords_error_isIo (w : World) :
    ∀ (n : Nat) (r : Reader) (hash i : Nat) (e : Error),
      readWords w r hash i n = .error e → ∃ k, e = .Io k := by
  intro n
  induction n with
  | zero =>
    intro r hash i e h
    simp [readWords] at h
  | succ n ih =>
    intro r hash i e h
    rw [readWords] at h
    cases hfa : w.readFaults i with
    | some e2 =>
      rw [hfa] at h
      exact ⟨e2.kind, by cases h; rfl⟩
    | none =>
      rw [hfa] at h
      cases hre : read_exact8 r with
      | error e2 =>
        rw [hre] at h
        exact ⟨e2.kind, by cases h; rfl⟩
      | ok pr =>
        rw [hre] at h
        exact ih _ _ _ _ h

/-! ## Lemmas about word sums over windows -/

theorem u64word_take (c : List Nat) (p m : Nat) (h : p + 8 ≤ m) :
    u64word (c.take m) p = u64word c p := by
  rw [u64word, u64word, List.drop_take, List.take_take]
  have hmin : min 8 (m - p) = 8 := by omega
  rw [hmin]

theorem u64word_drop (c : List Nat) (s p : Nat) :
    u64word (c.drop s) p = u64word c (s + p) := by
  rw [u64word, u64word, List.drop_drop]

theorem wordsSum_take (c : List Nat) :
    ∀ (n p m : Nat), p + 8 * n ≤ m → wordsSum (c.take m) p n = wordsSum c p n := by
  intro n
  induction n with
  | zero => intro p m _; rfl
  | succ n ih =>
    intro p m h
    rw [wordsSum, wordsSum, u64word_take c p m (by omega), ih (p + 8) m (by omega)]

theorem wordsSum_drop (c : List Nat) :
    ∀ (n s p : Nat), wordsSum (c.drop s) p n = wordsSum c (s + p) n := by
  intro n
  induction n with
  | zero => intro s p; rfl
  | succ n ih =>
    intro s p
    have h8 : s + (p + 8) = s + p + 8 := by omega
    rw [wordsSum, wordsSum, u64word_drop, ih s (p + 8), h8]

theorem wordsSum_replicate (b : Nat) :
    ∀ (n p m : Nat), p + 8 * n ≤ m →
      wordsSum (List.replicate m b) p n = n * u64_from_le_bytes (List.replicate 8 b) := by
  intro n
  induction n with
  | zero => intro p m _; simp [wordsSum]
  | succ n ih =>
    intro p m h
    have hw : u64word (List.replicate m b) p = u64_from_le_bytes (List.replicate 8 b) := by
      rw [u64word, List.drop_replicate, List.take_replicate]
      have hmin : min 8 (m - p) = 8 := by omega
      rw [hmin]
    rw [wordsSum, hw, ih (p + 8) m (by omega)]
    ring

/-- The two window sums of the spec, expressed through `wordsSum` on the whole
byte list. -/
theorem sum_of_le_words_head (c : List Nat) (h : CHUNK_SIZE ≤ c.length) :
    sum_of_le_words (c.take CHUNK_SIZE) = wordsSum c 0 word_count := by
  have hlen : (c.take CHUNK_SIZE).length = CHUNK_SIZE := by
    rw [List.length_take]
    omega
  rw [sum_of_le_words, hlen]
  have hwc : CHUNK_SIZE / 8 = word_count := rfl
  rw [hwc, wordsSum_take c word_count 0 CHUNK_SIZE (by norm_num [word_count, CHUNK_SIZE])]

theorem sum_of_le_words_tail (c : List Nat) (h : CHUNK_SIZE ≤ c.length) :
    sum_of_le_words (c.drop (c.length - CHUNK_SIZE))
      = wordsSum c (c.length - CHUNK_SIZE) word_count := by
  have hlen : (c.drop (c.length - CHUNK_SIZE)).length = CHUNK_SIZE := by
    rw [List.length_drop]
    omega
  rw [sum_of_le_words, hlen]
  have hwc : CHUNK_SIZE / 8 = word_count := rfl
  rw [hwc, wordsSum_drop c word_count (c.length - CHUNK_SIZE) 0, Nat.add_zero]

/-! ## The behaviour of `from_path` on a fault-free world -/

/-- On a fault-free world serving a large enough file, `from_path` returns the
spec's closed-form value: length plus both window sums, modulo `2 ^ 64`. -/
theorem from_path_ok_formula (c : List Nat) (h : CHUNK_SIZE ≤ c.length) :
    from_path (okWorld c) = some (.ok (MovieHash.new
      ((c.length + sum_of_le_words (c.take CHUNK_SIZE)
        + sum_of_le_words (c.drop (c.length - CHUNK_SIZE))) % 2 ^ 64))) := by
  have e1 : 8 * word_count = CHUNK_SIZE := by norm_num [word_count, CHUNK_SIZE]
  have hb1 : 0 + 8 * word_count ≤ c.length := by omega
  have hb2 : c.length - CHUNK_SIZE + 8 * word_count ≤ c.length := by omega
  have hrw1 := readWords_ok (okWorld c) c word_count 0 c.length 0
    (fun _ _ => rfl) hb1
  have hrw2 := readWords_ok (okWorld c) c word_count (c.length - CHUNK_SIZE)
    ((c.length + wordsSum c 0 word_count) % 2 ^ 64) word_count
    (fun _ _ => rfl) hb2
  have hwc0 : ¬ word_count = 0 := by norm_num [word_count, CHUNK_SIZE]
  rw [if_neg hwc0] at hrw1 hrw2
  have hguard : ¬ c.length < CHUNK_SIZE := by omega
  rw [from_path]
  simp only [okWorld] at hrw1 hrw2 ⊢
  rw [if_neg hguard]
  simp only [hrw1, u64_checked_sub, if_pos h, hrw2, Nat.mod_add_mod,
    sum_of_le_words_head c h, sum_of_le_words_tail c h]

/-- A world satisfying `servedBy w c` is exactly the fault-free world of `c`. -/
theorem eq_okWorld_of_servedBy (w : World) (c : List Nat) (h : servedBy w c) :
    w = okWorld c := by
  obtain ⟨h1, h2, h3, h4⟩ := h
  cases w
  simp_all [okWorld]
  funext i
  exact h3 i

/-- `from_path` never panics: the only partial operation, the `u64`
subtraction computing the seek offset, is reached only behind the
`SmallSize` guard. -/
theorem from_path_isSome_aux (w : World) : (from_path w).isSome = true := by
  rw [from_path]
  repeat' split
  all_goals first
    | rfl
    | (rename_i hsub
       rw [u64_checked_sub] at hsub
       split at hsub
       · exact Option.noConfusion hsub
       · omega)

/-! ## Lemmas about the hexadecimal rendering -/

theorem hexDigitChar_mem : ∀ m, m < 16 → hexDigitChar m ∈ lowerHexDigits := by
  decide

theorem hexBE_length (k : Nat) : ∀ n, (hexBE k n).length = k := by
  induction k with
  | zero => intro n; rfl
  | succ k ih => intro n; simp [hexBE, ih]

theorem hexBE_zero (k : Nat) : hexBE k 0 = List.replicate k '0' := by
  induction k with
  | zero => rfl
  | succ k ih =>
    have h0 : hexDigitChar (0 % 16) = '0' := by decide
    rw [hexBE, Nat.zero_div, ih, h0, List.replicate_succ']

theorem hexBE_mem (k : Nat) : ∀ n ch, ch ∈ hexBE k n → ch ∈ lowerHexDigits := by
  induction k with
  | zero => intro n ch h; simp [hexBE] at h
  | succ k ih =>
    intro n ch h
    rw [hexBE, List.mem_append] at h
    rcases h with h | h
    · exact ih _ _ h
    · rw [List.mem_singleton] at h
      subst h
      exact hexDigitChar_mem _ (Nat.mod_lt _ (by omega))

theorem padHex (k : Nat) : ∀ n, n < 16 ^ (k + 1) →
    List.replicate ((k + 1) - (hexChars n).length) '0' ++ hexChars n = hexBE (k + 1) n := by
  induction k with
  | zero =>
    intro n hn
    have h16 : n < 16 := by simpa using hn
    rw [hexChars, dif_pos h16]
    simp [hexBE, Nat.mod_eq_of_lt h16, Nat.div_eq_of_lt h16]
  | succ k ih =>
    intro n hn
    by_cases h16 : n < 16
    · rw [hexChars, dif_pos h16]
      rw [hexBE, Nat.div_eq_of_lt h16, Nat.mod_eq_of_lt h16, hexBE_zero]
      simp [List.replicate_succ']
    · rw [hexChars, dif_neg h16]
      have hdiv : n / 16 < 16 ^ (k + 1) := by
        rw [Nat.div_lt_iff_lt_mul (by omega)]
        calc n < 16 ^ (k + 1 + 1) := hn
          _ = 16 ^ (k + 1) * 16 := by ring
      have hlen : (hexChars (n / 16) ++ [hexDigitChar (n % 16)]).length
          = (hexChars (n / 16)).length + 1 := by simp
      rw [hlen]
      have hsub : (k + 1 + 1) - ((hexChars (n / 16)).length + 1)
          = (k + 1) - (hexChars (n / 16)).length := by omega
      rw [hsub, ← List.append_assoc, ih _ hdiv]
      rfl

/-! ## Claims about rendering (C5, C6, C8) -/

/-- C5: for every 64-bit Fingerprint value, including zero and values with the
high bit set, `MovieHash::as_hex` is a string of exactly 16 characters, each a
lowercase hexadecimal digit, equal to the big-endian hex representation of the
value left-padded with zeros. -/
theorem as_hex_canonical (n : Nat) (h : n < 2 ^ 64) :
    (MovieHash.new n).as_hex.length = 16 ∧
    (∀ ch ∈ (MovieHash.new n).as_hex.data, ch ∈ lowerHexDigits) ∧
    (MovieHash.new n).as_hex = specHex16 n := by
  have h16 : n < 16 ^ (15 + 1) := by
    have : (16 : Nat) ^ (15 + 1) = 2 ^ 64 := by norm_num
    omega
  have hpad := padHex 15 n h16
  have heq : (MovieHash.new n).as_hex = specHex16 n := by
    show (⟨List.replicate (16 - (hexChars n).length) '0' ++ hexChars n⟩ : String)
      = (⟨hexBE 16 n⟩ : String)
    exact congrArg String.mk hpad
  refine ⟨?_, ?_, heq⟩
  · rw [heq]
    show (hexBE 16 n).length = 16
    exact hexBE_length 16 n
  · rw [heq]
    intro ch hch
    exact hexBE_mem 16 n ch hch

/-- Witness for C5 at a value with the high bit set. -/
theorem as_hex_canonical_witness :
    2 ^ 63 < 2 ^ 64 ∧
    ((MovieHash.new (2 ^ 63)).as_hex.length = 16 ∧
     (∀ ch ∈ (MovieHash.new (2 ^ 63)).as_hex.data, ch ∈ lowerHexDigits) ∧
     (MovieHash.new (2 ^ 63)).as_hex = specHex16 (2 ^ 63)) :=
  ⟨by norm_num, as_hex_canonical (2 ^ 63) (by norm_num)⟩

/-- C6: `MovieHash::as_hex` and the `Display` implementation for `MovieHash`
produce identical strings for every Fingerprint value. -/
theorem as_hex_eq_display (h : MovieHash) : h.as_hex = h.displayString :=
  rfl

/-! ## Claims about the fingerprint computation (C1, C2, C3, C4, C7, C9, C10) -/

/-- C1: for every file whose byte length `L` is at least 65536, a successful
fingerprint computation on a healthy filesystem returns a Fingerprint whose
value equals `(L + sum of the 8192 LE 64-bit words of the first 65536 bytes
+ sum of the 8192 LE 64-bit words of the last 65536 bytes) mod 2^64`, the
accumulator being seeded by `L`. -/
theorem fingerprint_formula (c : List Nat) (h : CHUNK_SIZE ≤ c.length) :
    from_path (okWorld c) = some (.ok (MovieHash.new
      ((c.length + sum_of_le_words (c.take CHUNK_SIZE)
        + sum_of_le_words (c.drop (c.length - CHUNK_SIZE))) % 2 ^ 64))) :=
  from_path_ok_formula c h

/-- Witness for C1: a 65536-byte all-zero file hashes to its length. -/
theorem fingerprint_formula_witness :
    CHUNK_SIZE ≤ (List.replicate 65536 (0 : Nat)).length ∧
    from_path (okWorld (List.replicate 65536 (0 : Nat)))
      = some (.ok (MovieHash.new 65536)) := by
  have hlen : (List.replicate 65536 (0 : Nat)).length = 65536 :=
    List.length_replicate 65536 0
  have hch : CHUNK_SIZE ≤ (List.replicate 65536 (0 : Nat)).length := by
    rw [hlen]; norm_num [CHUNK_SIZE]
  refine ⟨hch, ?_⟩
  rw [fingerprint_formula (List.replicate 65536 (0 : Nat)) hch]
  have h1 : (List.replicate 65536 (0 : Nat)).take CHUNK_SIZE
      = List.replicate 65536 (0 : Nat) :=
    List.take_of_length_le (by rw [hlen]; norm_num [CHUNK_SIZE])
  have h2 : (List.replicate 65536 (0 : Nat)).drop
        ((List.replicate 65536 (0 : Nat)).length - CHUNK_SIZE)
      = List.replicate 65536 (0 : Nat) := by
    rw [hlen]
    have h0 : 65536 - CHUNK_SIZE = 0 := by norm_num [CHUNK_SIZE]
    rw [h0, List.drop_zero]
  have h3 : sum_of_le_words (List.replicate 65536 (0 : Nat)) = 0 := by
    rw [sum_of_le_words, hlen]
    have h8 : (65536 : Nat) / 8 = 8192 := by norm_num
    rw [h8, wordsSum_replicate 0 8192 0 65536 (by norm_num)]
    decide
  rw [h1, h2, h3, hlen]
  norm_num

/-- C2: for every file that opens and stats successfully with byte length
strictly below 65536, the computation fails with `Error::SmallSize` whatever
the content; and a file of length exactly 65536 never produces `SmallSize`. -/
theorem small_size_check :
    (∀ (w : World) (c : List Nat), w.openResult = .ok c →
        w.metadataResult = .ok c.length → c.length < CHUNK_SIZE →
        from_path w = some (.error .SmallSize)) ∧
    (∀ (w : World) (c : List Nat), w.openResult = .ok c →
        w.metadataResult = .ok c.length → c.length = CHUNK_SIZE →
        from_path w ≠ some (.error .SmallSize)) := by
  constructor
  · intro w c ho hm hlt
    simp [from_path, ho, hm, hlt]
  · intro w c ho hm heq hcontra
    simp only [from_path, ho, hm, heq] at hcontra
    rw [if_neg (lt_irrefl CHUNK_SIZE)] at hcontra
    split at hcontra
    · rename_i e he
      obtain ⟨k, hk⟩ := readWords_error_isIo w _ _ _ _ _ he
      subst hk
      simp at hcontra
    · split at hcontra
      · exact Option.noConfusion hcontra
      · split at hcontra
        · simp [Error.ofIoError] at hcontra
        · split at hcontra
          · rename_i e he
            obtain ⟨k, hk⟩ := readWords_error_isIo w _ _ _ _ _ he
            subst hk
            simp at hcontra
          · simp at hcontra

/-- Witness for C2: a 10-byte file yields `SmallSize`. -/
theorem small_size_check_witness :
    ((okWorld (List.replicate 10 (0 : Nat))).openResult
        = .ok (List.replicate 10 (0 : Nat)) ∧
     (okWorld (List.replicate 10 (0 : Nat))).metadataResult
        = .ok (List.replicate 10 (0 : Nat)).length ∧
     (List.replicate 10 (0 : Nat)).length < CHUNK_SIZE) ∧
    from_path (okWorld (List.replicate 10 (0 : Nat))) = some (.error .SmallSize) :=
  ⟨⟨rfl, rfl, by norm_num [CHUNK_SIZE]⟩,
   small_size_check.1 _ _ rfl rfl (by norm_num [CHUNK_SIZE])⟩

/-- C3: every I/O failure arising while opening, stat-ing, seeking in, or
reading the file is surfaced as `Error::Io(kind)` with exactly the kind of the
originating `io::Error`, and the computation stops at the first failure: the
five conjuncts cover a failing open, a failing stat, the first injected fault
during the head-window reads, a failing seek after a clean head window, and
the first injected fault during the tail-window reads. -/
theorem io_error_propagation :
    (∀ (w : World) (e : IoError), w.openResult = .error e →
        from_path w = some (.error (.Io e.kind))) ∧
    (∀ (w : World) (c : List Nat) (e : IoError), w.openResult = .ok c →
        w.metadataResult = .error e →
        from_path w = some (.error (.Io e.kind))) ∧
    (∀ (w : World) (c : List Nat) (file_size t : Nat) (e : IoError),
        w.openResult = .ok c → w.metadataResult = .ok file_size →
        CHUNK_SIZE ≤ file_size → file_size ≤ c.length → t < word_count →
        (∀ j, j < t → w.readFaults j = none) → w.readFaults t = some e →
        from_path w = some (.error (.Io e.kind))) ∧
    (∀ (w : World) (c : List Nat) (e : IoError), w.openResult = .ok c →
        w.metadataResult = .ok c.length → CHUNK_SIZE ≤ c.length →
        (∀ j, j < word_count → w.readFaults j = none) →
        w.seekFault = some e →
        from_path w = some (.error (.Io e.kind))) ∧
    (∀ (w : World) (c : List Nat) (t : Nat) (e : IoError), w.openResult = .ok c →
        w.metadataResult = .ok c.length → CHUNK_SIZE ≤ c.length →
        t < word_count →
        (∀ j, j < word_count + t → w.readFaults j = none) →
        w.readFaults (word_count + t) = some e →
        w.seekFault = none →
        from_path w = some (.error (.Io e.kind))) := by
  have e1 : 8 * word_count = CHUNK_SIZE := by norm_num [word_count, CHUNK_SIZE]
  have hwc0 : ¬ word_count = 0 := by norm_num [word_count, CHUNK_SIZE]
  refine ⟨?_, ?_, ?_, ?_, ?_⟩
  · intro w e ho
    simp [from_path, ho, Error.ofIoError]
  · intro w c e ho hm
    simp [from_path, ho, hm, Error.ofIoError]
  · intro w c file_size t e ho hm hch hfs ht hnone hsome
    have hrw := readWords_fault w c t word_count 0 file_size 0 e ht
      (fun j hj => by simpa using hnone j hj) (by simpa using hsome)
      (by omega)
    simp only [from_path, ho, hm]
    rw [if_neg (by omega), hrw]
  · intro w c e ho hm hch hnone hseek
    have hrw := readWords_ok w c word_count 0 c.length 0
      (fun j hj => by simpa using hnone j hj) (by omega)
    rw [if_neg hwc0] at hrw
    simp only [from_path, ho, hm]
    rw [if_neg (by omega)]
    simp only [hrw, u64_checked_sub, if_pos hch, hseek]
    rfl
  · intro w c t e ho hm hch ht hnone hsome hseek
    have hrw1 := readWords_ok w c word_count 0 c.length 0
      (fun j hj => by simpa using hnone j (by omega)) (by omega)
    rw [if_neg hwc0] at hrw1
    have hrw2 := readWords_fault w c t word_count (c.length - CHUNK_SIZE)
      ((c.length + wordsSum c 0 word_count) % 2 ^ 64) word_count e ht
      (fun j hj => hnone (word_count + j) (by omega)) hsome (by omega)
    simp only [from_path, ho, hm]
    rw [if_neg (by omega)]
    simp only [hrw1, u64_checked_sub, if_pos hch, hseek, hrw2]

/-- Witness for C3: a non-existent path surfaces as `Io(NotFound)`. -/
theorem io_error_propagation_witness :
    (World.mk (.error ⟨.NotFound⟩) (.ok 0) (fun _ => none) none).openResult
        = .error ⟨.NotFound⟩ ∧
    from_path (World.mk (.error ⟨.NotFound⟩) (.ok 0) (fun _ => none) none)
        = some (.error (.Io .NotFound)) :=
  ⟨rfl, io_error_propagation.1 _ ⟨.NotFound⟩ rfl⟩

/-- C4: a file of exactly 65536 bytes is accepted, its head and tail windows
coincide byte for byte, and the result is
`(65536 + 2 * sum of the 8192 LE words of the content) mod 2^64`. -/
theorem exact_chunk_file (c : List Nat) (h : c.length = CHUNK_SIZE) :
    c.take CHUNK_SIZE = c.drop (c.length - CHUNK_SIZE) ∧
    from_path (okWorld c) = some (.ok (MovieHash.new
      ((65536 + 2 * sum_of_le_words c) % 2 ^ 64))) := by
  have hch : CHUNK_SIZE ≤ c.length := by omega
  have htake : c.take CHUNK_SIZE = c := List.take_of_length_le (by omega)
  have hdrop : c.drop (c.length - CHUNK_SIZE) = c := by
    have h0 : c.length - CHUNK_SIZE = 0 := by omega
    rw [h0, List.drop_zero]
  refine ⟨by rw [htake, hdrop], ?_⟩
  rw [from_path_ok_formula c hch, htake, hdrop, h]
  have hc : CHUNK_SIZE = 65536 := rfl
  have harith : CHUNK_SIZE + sum_of_le_words c + sum_of_le_words c
      = 65536 + 2 * sum_of_le_words c := by omega
  rw [harith]

/-- Witness for C4 on a concrete 65536-byte file. -/
theorem exact_chunk_file_witness :
    (List.replicate 65536 (0 : Nat)).length = CHUNK_SIZE ∧
    ((List.replicate 65536 (0 : Nat)).take CHUNK_SIZE
        = (List.replicate 65536 (0 : Nat)).drop
            ((List.replicate 65536 (0 : Nat)).length - CHUNK_SIZE) ∧
     from_path (okWorld (List.replicate 65536 (0 : Nat))) = some (.ok (MovieHash.new
       ((65536 + 2 * sum_of_le_words (List.replicate 65536 (0 : Nat))) % 2 ^ 64)))) := by
  have hlen : (List.replicate 65536 (0 : Nat)).length = CHUNK_SIZE := by
    rw [List.length_replicate]
    rfl
  exact ⟨hlen, exact_chunk_file _ hlen⟩

/-- C7: each word is folded in with wraparound (`mod 2^64`) unsigned addition:
`wrapping_add` is exactly addition modulo `2^64` and never exceeds the width,
and the computation succeeds with the wrapped value for every large-enough
input, however large the word sums are. -/
theorem wrapping_accumulation :
    (∀ a b : Nat, u64_wrapping_add a b = (a + b) % 2 ^ 64 ∧
        u64_wrapping_add a b < 2 ^ 64) ∧
    (∀ c : List Nat, CHUNK_SIZE ≤ c.length →
      from_path (okWorld c) = some (.ok (MovieHash.new
        ((c.length + sum_of_le_words (c.take CHUNK_SIZE)
          + sum_of_le_words (c.drop (c.length - CHUNK_SIZE))) % 2 ^ 64)))) :=
  ⟨fun _ _ => ⟨rfl, Nat.mod_lt _ (by norm_num)⟩,
   fun c h => from_path_ok_formula c h⟩

/-- Witness for C7: an all-`0xff` file whose true word sums vastly exceed
`2^64`; the computation succeeds with the wrapped value 49152. -/
theorem wrapping_accumulation_witness :
    CHUNK_SIZE ≤ (List.replicate 65536 (255 : Nat)).length ∧
    from_path (okWorld (List.replicate 65536 (255 : Nat)))
      = some (.ok (MovieHash.new 49152)) := by
  have hlen : (List.replicate 65536 (255 : Nat)).length = 65536 :=
    List.length_replicate 65536 255
  have hch : CHUNK_SIZE ≤ (List.replicate 65536 (255 : Nat)).length := by
    rw [hlen]; norm_num [CHUNK_SIZE]
  refine ⟨hch, ?_⟩
  rw [wrapping_accumulation.2 (List.replicate 65536 (255 : Nat)) hch]
  have h1 : (List.replicate 65536 (255 : Nat)).take CHUNK_SIZE
      = List.replicate 65536 (255 : Nat) :=
    List.take_of_length_le (by rw [hlen]; norm_num [CHUNK_SIZE])
  have h2 : (List.replicate 65536 (255 : Nat)).drop
        ((List.replicate 65536 (255 : Nat)).length - CHUNK_SIZE)
      = List.replicate 65536 (255 : Nat) := by
    rw [hlen]
    have h0 : 65536 - CHUNK_SIZE = 0 := by norm_num [CHUNK_SIZE]
    rw [h0, List.drop_zero]
  have h3 : sum_of_le_words (List.replicate 65536 (255 : Nat))
      = 8192 * u64_from_le_bytes (List.replicate 8 (255 : Nat)) := by
    rw [sum_of_le_words, hlen]
    have h8 : (65536 : Nat) / 8 = 8192 := by norm_num
    rw [h8, wordsSum_replicate 255 8192 0 65536 (by norm_num)]
  have hword : u64_from_le_bytes (List.replicate 8 (255 : Nat))
      = 18446744073709551615 := by decide
  rw [h1, h2, h3, hword, hlen]
  norm_num

/-- C9: the fingerprint computation is deterministic: any two fault-free calls
serving the same unchanged file bytes return equal results, and for a file of
length at least 65536 that common result is the closed-form value determined
by the bytes alone. -/
theorem deterministic (w1 w2 : World) (c : List Nat)
    (h1 : servedBy w1 c) (h2 : servedBy w2 c) :
    from_path w1 = from_path w2 ∧
    (CHUNK_SIZE ≤ c.length → from_path w1 = some (.ok (MovieHash.new
      ((c.length + sum_of_le_words (c.take CHUNK_SIZE)
        + sum_of_le_words (c.drop (c.length - CHUNK_SIZE))) % 2 ^ 64)))) := by
  rw [eq_okWorld_of_servedBy w1 c h1, eq_okWorld_of_servedBy w2 c h2]
  exact ⟨rfl, fun h => from_path_ok_formula c h⟩

/-- Witness for C9 on two (identical) fault-free calls on a concrete file. -/
theorem deterministic_witness :
    (servedBy (okWorld (List.replicate 65536 (1 : Nat)))
        (List.replicate 65536 (1 : Nat)) ∧
     servedBy (okWorld (List.replicate 65536 (1 : Nat)))
        (List.replicate 65536 (1 : Nat))) ∧
    from_path (okWorld (List.replicate 65536 (1 : Nat)))
      = from_path (okWorld (List.replicate 65536 (1 : Nat))) := by
  have hs : servedBy (okWorld (List.replicate 65536 (1 : Nat)))
      (List.replicate 65536 (1 : Nat)) := ⟨rfl, rfl, fun _ => rfl, rfl⟩
  exact ⟨⟨hs, hs⟩, (deterministic _ _ _ hs hs).1⟩

/-- C10: the unsigned subtraction computing the tail-window seek offset can
never underflow, because it is only reached behind the size guard; under the
guard's negation it is checked-defined, and `from_path` as a whole is total
(never the panic value `none`) for every world. -/
theorem no_underflow :
    (∀ file_size : Nat, ¬ file_size < CHUNK_SIZE →
        u64_checked_sub file_size CHUNK_SIZE = some (file_size - CHUNK_SIZE)) ∧
    (∀ w : World, (from_path w).isSome = true) :=
  ⟨fun _ h => by rw [u64_checked_sub, if_pos (by omega)],
   from_path_isSome_aux⟩

/-- Witness for C10 at the guard boundary. -/
theorem no_underflow_witness :
    (¬ (65536 : Nat) < CHUNK_SIZE ∧
     u64_checked_sub 65536 CHUNK_SIZE = some (65536 - CHUNK_SIZE)) ∧
    (from_path (okWorld [])).isSome = true :=
  ⟨⟨by norm_num [CHUNK_SIZE], no_underflow.1 65536 (by norm_num [CHUNK_SIZE])⟩,
   no_underflow.2 (okWorld [])⟩

/-- C8: rendering `Error::SmallSize` yields the fixed string
"file size is less than 64 KB", and rendering `Error::Io(kind)` yields the
platform's standard description of the kind, in particular "entity not found"
for `NotFound` and "invalid filename" for `InvalidFilename`. -/
theorem error_messages :
    Error.display .SmallSize = "file size is less than 64 KB" ∧
    Error.display (.Io .NotFound) = "entity not found" ∧
    Error.display (.Io .InvalidFilename) = "invalid filename" ∧
    (∀ k : ErrorKind, Error.display (.Io k) = k.as_str) :=
  ⟨rfl, rfl, rfl, fun _ => rfl⟩

end Moviehash
